import Mathlib

/-!
Verification of the document chunking pipeline
(`src/processors/text_splitter.py`, class `TextSplitter`).

Texts are embedded as `List Char`; Python dicts as structures holding the
fields the pipeline reads.  Functions implemented in the repository
(`normalize`, `merge_item`, `xls_normalize`, `split_text`,
`_docs_to_core_docs`, chunk numbering) are translated directly from the
source.  The two external library calls the pipeline delegates to —
langchain's `CharacterTextSplitter` and nltk's `blankline_tokenize` — have
no code in this repository; they are modelled from the specification, and
each such definition is marked `Modelled from the spec:`.
-/

set_option maxRecDepth 20000

deriving instance DecidableEq for Except

namespace AIPlatform

/-- Character strings, embedded as lists of characters. -/
abbrev Str := List Char

/-- The blank-line separator `"\n\n"` used by `merge_item`. -/
def blankSep : Str := ['\n', '\n']

/-- A record dict as consumed by `TextSplitter.normalize`
(keys `"text"` and `"page_num"`, lines 178-181 of the source). -/
structure Item where
  text : Str
  page_num : Int
deriving Repr, DecidableEq

/-- The `page_avg` lambda of `TextSplitter.normalize` (line 51):
`lambda a, b: (a + b) // 2`, Python floor division. -/
def page_avg (a b : Int) : Int := (a + b).fdiv 2

/-- `TextSplitter.merge_item` (lines 88-103): copies `a`, joins the two
texts with `"\n\n"` (first argument's text first) and sets the page. -/
def merge_item (a b : Item) (page_num : Int) : Item :=
  { text := a.text ++ blankSep ++ b.text, page_num := page_num }

/-- Loop body of `TextSplitter.normalize` (lines 47-64), with the pending
`tmp_item` carry as an `Option`.  When a carry exists the current record
`v` is merged with it via
`merge_item(input_list[i], tmp_item, page_avg(...))`. -/
def normGo (chunk_len : Nat) : Option Item → List Item → List Item
  | none, [] => []
  | some t, [] => [t]
  | some t, v :: rest =>
    let m := merge_item v t (page_avg v.page_num t.page_num)
    if m.text.length < chunk_len then normGo chunk_len (some m) rest
    else m :: normGo chunk_len none rest
  | none, v :: rest =>
    if v.text.length < chunk_len then normGo chunk_len (some v) rest
    else v :: normGo chunk_len none rest

/-- `TextSplitter.normalize` (lines 36-64): merge small chunks up to
`chunk_len`, starting with an empty carry. -/
def normalize (input_list : List Item) (chunk_len : Nat) : List Item :=
  normGo chunk_len none input_list

/-- A record dict as consumed by `TextSplitter.xls_normalize`
(keys `"uuid"`, `"file_path"`, `"page_num"`, `"text"`). -/
structure XItem where
  uuid : Str
  file_path : Str
  page_num : Int
  text : Str
deriving Repr, DecidableEq

/-- Drops a leading run of newline characters. -/
def dropNL : List Char → List Char
  | [] => []
  | c :: t => if c = '\n' then dropNL t else c :: t

/-- Modelled from the spec: worker for nltk's `blankline_tokenize`
(imported at line 12 of the source, no code in this repository).  Per
§4.2, "consecutive text blocks separated by one or more empty lines
become independent units": the scan accumulates a block and closes it at
every maximal run of two or more newline characters; empty blocks are not
emitted.  The first argument is fuel, always instantiated with the length
of the text. -/
def blanklineAuxF : Nat → List Char → Str → List Str
  | _, [], acc => if acc.isEmpty then [] else [acc]
  | 0, l, acc => if (acc ++ l).isEmpty then [] else [acc ++ l]
  | fuel + 1, c :: rest, acc =>
    if c = '\n' ∧ rest.head? = some '\n' then
      if acc.isEmpty then blanklineAuxF fuel (dropNL rest) []
      else acc :: blanklineAuxF fuel (dropNL rest) []
    else blanklineAuxF fuel rest (acc ++ [c])

/-- Modelled from the spec: nltk's `blankline_tokenize` (§4.2 blank-line
tokenizer), splitting a text into its blank-line-delimited blocks. -/
def blankline_tokenize (t : Str) : List Str := blanklineAuxF t.length t []

/-- `TextSplitter.xls_normalize` (lines 66-86): one output record per
blank-line block of each input record, carrying the parent's fields. -/
def xls_normalize (input_list : List XItem) : List XItem :=
  input_list.flatMap (fun item =>
    (blankline_tokenize item.text).map (fun row =>
      { uuid := item.uuid, file_path := item.file_path,
        page_num := item.page_num, text := row }))

/-- `leadsWith p l`: `p` is an initial segment of `l`. -/
def leadsWith : Str → Str → Bool
  | [], _ => true
  | _ :: _, [] => false
  | a :: p, b :: l => a = b && leadsWith p l

/-- `trailsWith l s`: `s` is a final segment of `l` (Python `endswith`). -/
def trailsWith (l s : Str) : Bool := leadsWith s.reverse l.reverse

/-- Modelled from the spec: separator splitting of langchain's
`CharacterTextSplitter` (§4.3; no code in this repository).  Splits the
text at every occurrence of the separator, Python `str.split` style:
leftmost non-overlapping occurrences, separators consumed, empty pieces
kept.  Fuel is always instantiated with the length of the text. -/
def splitOnSepF (sep : Str) : Nat → Str → List Str
  | _, [] => [[]]
  | 0, l => [l]
  | fuel + 1, c :: rest =>
    if sep ≠ [] ∧ leadsWith sep (c :: rest) = true then
      [] :: splitOnSepF sep fuel ((c :: rest).drop sep.length)
    else
      match splitOnSepF sep fuel rest with
      | [] => [[c]]
      | p :: ps => (c :: p) :: ps

/-- Split a text at every occurrence of the separator. -/
def splitOnSep (sep t : Str) : List Str := splitOnSepF sep t.length t

/-- Join a list of texts with the separator between consecutive entries. -/
def sepJoin (sep : Str) : List Str → Str
  | [] => []
  | [p] => p
  | p :: q :: rest => p ++ sep ++ sepJoin sep (q :: rest)

/-- The last `O` characters of a piece (the whole piece when shorter). -/
def lastN (O : Nat) (l : Str) : Str := l.drop (l.length - O)

/-- Modelled from the spec: piece assembly of the fixed-size splitter
(§4.3).  Separator-delimited units are greedily packed, rejoined with the
separator, so that each assembled piece stays within `chunk_size` where
possible; a unit that cannot extend the current piece closes it, and the
last `chunk_overlap` characters of the closed piece are prepended to the
next piece, the separator standing between the overlap and the following
unit as the library's re-join places it, so neighboring pieces share a
textual overlap.  An oversized piece is hard-cut afterwards. -/
def asmGo (S O : Nat) (sep : Str) (cur : Str) : List Str → List Str
  | [] => [cur]
  | u :: us =>
    if (cur ++ sep ++ u).length ≤ S then asmGo S O sep (cur ++ sep ++ u) us
    else cur :: asmGo S O sep (lastN O cur ++ sep ++ u) us

/-- Modelled from the spec: assemble separator-delimited units into
pieces of at most `chunk_size` characters where possible, consecutive
pieces sharing the last `chunk_overlap` characters of the earlier one
(§4.3). -/
def assemble (S O : Nat) (sep : Str) : List Str → List Str
  | [] => []
  | u :: us => asmGo S O sep u us

/-- Modelled from the spec: the hard character-boundary cut of §4.3 and
concrete scenario 2.  A piece longer than `chunk_size` is cut into
windows of `chunk_size` characters advancing by `chunk_size -
chunk_overlap`, so consecutive windows share `chunk_overlap` characters.
Fuel is always instantiated with the length of the piece; the
`S - O = 0` escape keeps the function total on degenerate parameters
that validation rejects. -/
def hardCutF (S O : Nat) : Nat → Str → List Str
  | 0, t => [t]
  | fuel + 1, t =>
    if t.length ≤ S ∨ S - O = 0 then [t]
    else t.take S :: hardCutF S O fuel (t.drop (S - O))

/-- Hard-cut a piece into overlapping windows of at most `S` characters. -/
def hardCut (S O : Nat) (t : Str) : List Str := hardCutF S O t.length t

/-- Modelled from the spec: the fixed-size overlap splitter of §4.3
(langchain `CharacterTextSplitter.split_documents`, constructed at lines
194-200 of the source; no code in this repository), structured per
normalized unit: the assembled pieces, each hard-cut where oversized. -/
def fixedSplitGroups (S O : Nat) (sep : Str) (t : Str) : List (List Str) :=
  (assemble S O sep (splitOnSep sep t)).map (hardCut S O)

/-- Modelled from the spec: the chunk texts the fixed-size overlap
splitter produces for one normalized unit (§4.3). -/
def fixedSplit (S O : Nat) (sep : Str) (t : Str) : List Str :=
  (fixedSplitGroups S O sep t).flatten

/-- The metadata mapping of a pipeline document, restricted to the keys
the pipeline reads and writes (`source`, `page`, `chunk_num`).  Absent
keys are `none` (the source uses `dict.get` with defaults). -/
structure Metadata where
  source : Option Str
  page : Option Int
  chunk_num : Option Nat
deriving Repr, DecidableEq

/-- A langchain `Document` flowing through `split_text`. -/
structure PreDoc where
  page_content : Str
  metadata : Metadata
deriving Repr, DecidableEq

/-- An input document of `split_text` (lines 138-148: `CoreDocument` or
langchain `Document`, uniformly: a content that may be null and a
metadata mapping).  A null content is a malformed record: the source
crashes on it during preprocessing (`len(None)` in `normalize`). -/
structure InDoc where
  content : Option Str
  metadata : Metadata
deriving Repr, DecidableEq

/-- A `core.entities.Document` as produced by `_docs_to_core_docs`. -/
structure CoreDocument where
  id : Str
  content : Str
  metadata : Metadata
deriving Repr, DecidableEq

/-- Errors the chunking pipeline can raise (spec §7). -/
inductive SplitError where
  | malformedRecord
  | invalidConfiguration
deriving Repr, DecidableEq

/-- The `TextSplitter` configuration (lines 23-34). -/
structure Config where
  chunk_size : Nat
  chunk_overlap : Nat
  separator : Str
deriving Repr, DecidableEq

/-- Modelled from the spec: the InvalidConfiguration condition of §7
(`chunk_overlap ≥ chunk_size`, or `chunk_size ≤ 0`).  No such check
exists in `TextSplitter.__init__` (lines 23-34); in the source it could
only arise where the external `CharacterTextSplitter` is constructed
(line 195), i.e. after the preprocessing loop. -/
def checkConfig (cfg : Config) : Bool :=
  cfg.chunk_size ≤ cfg.chunk_overlap || cfg.chunk_size == 0

/-- `m.source.endswith('.xlsx') or m.source.endswith('.xls')`
(line 155), on `metadata.get('source', '')` (line 154). -/
def isTabular (m : Metadata) : Bool :=
  trailsWith (m.source.getD []) (".xlsx".toList) ||
    trailsWith (m.source.getD []) (".xls".toList)

/-- Preprocessing of one document (lines 152-192): tabular documents are
resplit via `xls_normalize` on a one-element list; all others are
normalized via `normalize` on a one-element list. -/
def preprocessDoc (S : Nat) (d : PreDoc) : List PreDoc :=
  if isTabular d.metadata then
    (xls_normalize [{ uuid := "unknown".toList,
                      file_path := d.metadata.source.getD [],
                      page_num := d.metadata.page.getD 0,
                      text := d.page_content }]).map
      (fun chunk =>
        { page_content := chunk.text,
          metadata := { d.metadata with
            page := some chunk.page_num,
            source := some chunk.file_path } })
  else
    (normalize [{ text := d.page_content,
                  page_num := d.metadata.page.getD 0 }] S).map
      (fun item =>
        { page_content := item.text,
          metadata := { d.metadata with page := some item.page_num } })

/-- Conversion of the input documents (lines 138-148), failing on the
first null content the preprocessing loop would crash on. -/
def toPreDocs : List InDoc → Except SplitError (List PreDoc)
  | [] => Except.ok []
  | d :: ds =>
    match d.content with
    | none => Except.error SplitError.malformedRecord
    | some t =>
      match toPreDocs ds with
      | Except.error e => Except.error e
      | Except.ok rest =>
        Except.ok ({ page_content := t, metadata := d.metadata } :: rest)

/-- Modelled from the spec: `splitter.split_documents(preprocessed_docs)`
(line 200) — each document is split by the fixed-size overlap splitter,
every chunk carrying its document's metadata. -/
def splitStage (cfg : Config) (docs : List PreDoc) : List PreDoc :=
  docs.flatMap (fun d =>
    (fixedSplit cfg.chunk_size cfg.chunk_overlap cfg.separator
        d.page_content).map
      (fun c => PreDoc.mk c d.metadata))

/-- Indexed map, used for chunk numbering and id assignment. -/
def mapWithIdx (f : Nat → α → β) : Nat → List α → List β
  | _, [] => []
  | i, a :: as => f i a :: mapWithIdx f (i + 1) as

/-- Chunk numbering (lines 202-204): `doc.metadata["chunk_num"] = i + 1`
over the enumerated split documents. -/
def numberChunks (docs : List PreDoc) : List PreDoc :=
  mapWithIdx
    (fun i d =>
      { d with metadata := { d.metadata with chunk_num := some (i + 1) } })
    0 docs

/-- Decimal representation of a natural number (Python `f"{i}"`). -/
def digitChar : Nat → Char
  | 0 => '0' | 1 => '1' | 2 => '2' | 3 => '3' | 4 => '4'
  | 5 => '5' | 6 => '6' | 7 => '7' | 8 => '8' | _ => '9'

/-- Decimal digits of a positive natural number, least significant
first; the first argument is fuel, instantiated with the number itself. -/
def decReprF : Nat → Nat → List Char
  | _, 0 => []
  | 0, _ + 1 => []
  | fuel + 1, n + 1 =>
    digitChar ((n + 1) % 10) :: decReprF fuel ((n + 1) / 10)

/-- Decimal digits of a natural number, most significant first. -/
def decRepr (n : Nat) : Str :=
  if n = 0 then ['0'] else (decReprF n n).reverse

/-- The chunk id of `_docs_to_core_docs` (line 118):
`f"{doc.metadata.get('source', 'unknown')}_{i}"`. -/
def mkId (m : Metadata) (i : Nat) : Str :=
  m.source.getD ("unknown".toList) ++ ['_'] ++ decRepr i

/-- `TextSplitter._docs_to_core_docs` (lines 105-125). -/
def docsToCoreDocs (docs : List PreDoc) : List CoreDocument :=
  mapWithIdx
    (fun i d =>
      { id := mkId d.metadata i, content := d.page_content,
        metadata := d.metadata })
    0 docs

/-- `TextSplitter.split_text` (lines 127-209): convert the inputs,
preprocess each document separately, then (as the source does at line
195, after the preprocessing loop) validate the configuration, apply the
fixed-size overlap splitter, number the chunks and build core
documents. -/
def split_text (cfg : Config) (documents : List InDoc) :
    Except SplitError (List CoreDocument) :=
  match toPreDocs documents with
  | Except.error e => Except.error e
  | Except.ok preDocs =>
    let preprocessed := preDocs.flatMap (preprocessDoc cfg.chunk_size)
    if checkConfig cfg then Except.error SplitError.invalidConfiguration
    else
      Except.ok (docsToCoreDocs (numberChunks (splitStage cfg preprocessed)))

/-- Feed a produced chunk back into the pipeline as an input document. -/
def coreToInDoc (c : CoreDocument) : InDoc :=
  { content := some c.content, metadata := c.metadata }

/-- Reconstruction of a unit from its chunk list: the first chunk,
followed by every later chunk with its `chunk_overlap`-length overlap
prefix removed. -/
def overlapRecon (O : Nat) : List Str → Str
  | [] => []
  | c :: cs => c ++ (cs.map (fun p => p.drop O)).flatten

theorem leadsWith_iff (p : Str) : ∀ l, leadsWith p l = true ↔ ∃ r, p ++ r = l := by
  induction p with
  | nil =>
    intro l
    simp only [leadsWith, List.nil_append, true_iff]
    exact ⟨l, rfl⟩
  | cons a p ih =>
    intro l
    cases l with
    | nil => simp [leadsWith]
    | cons b l' =>
      simp only [leadsWith, Bool.and_eq_true, decide_eq_true_eq, ih,
        List.cons_append, List.cons.injEq]
      constructor
      · rintro ⟨rfl, r, rfl⟩; exact ⟨r, rfl, rfl⟩
      · rintro ⟨r, rfl, rfl⟩; exact ⟨rfl, r, rfl⟩

theorem splitOnSepF_ne_nil (sep : Str) : ∀ (fuel : Nat) (l : Str),
    splitOnSepF sep fuel l ≠ []
  | fuel, [] => by cases fuel <;> simp [splitOnSepF]
  | 0, _ :: _ => by simp [splitOnSepF]
  | fuel + 1, c :: rest => by
    simp only [splitOnSepF]
    split
    · simp
    · split <;> simp

theorem sepJoin_cons_cons (sep p q : Str) (rest : List Str) :
    sepJoin sep (p :: q :: rest) = p ++ sep ++ sepJoin sep (q :: rest) := rfl

theorem sepJoin_cons_head (sep : Str) (c : Char) (p : Str) (ps : List Str) :
    sepJoin sep ((c :: p) :: ps) = c :: sepJoin sep (p :: ps) := by
  cases ps <;> simp [sepJoin]

theorem sepJoin_glue (sep a b : Str) (r : List Str) :
    sepJoin sep ((a ++ sep ++ b) :: r) = a ++ sep ++ sepJoin sep (b :: r) := by
  cases r <;> simp [sepJoin]

theorem sepJoin_splitOnSepF (sep : Str) : ∀ (fuel : Nat) (l : Str),
    l.length ≤ fuel → sepJoin sep (splitOnSepF sep fuel l) = l := by
  intro fuel
  induction fuel with
  | zero =>
    intro l hl
    have hnil : l = [] := by cases l <;> simp_all
    subst hnil
    simp [splitOnSepF, sepJoin]
  | succ n ih =>
    intro l hl
    cases l with
    | nil => simp [splitOnSepF, sepJoin]
    | cons c rest =>
      simp only [splitOnSepF]
      split
      · rename_i h
        obtain ⟨hsep, hlw⟩ := h
        obtain ⟨r, hr⟩ := (leadsWith_iff sep (c :: rest)).1 hlw
        have hsl : 1 ≤ sep.length := by
          cases hs : sep with
          | nil => exact absurd hs hsep
          | cons x xs => simp
        have hdrop : (c :: rest).drop sep.length = r := by
          rw [← hr]; exact List.drop_left sep r
        have hrlen : r.length ≤ n := by
          have hlen := congrArg List.length hr
          simp [List.length_append] at hlen
          simp at hl
          omega
        rw [hdrop]
        obtain ⟨p, ps, hS⟩ : ∃ p ps, splitOnSepF sep n r = p :: ps := by
          cases hS' : splitOnSepF sep n r with
          | nil => exact absurd hS' (splitOnSepF_ne_nil sep n r)
          | cons p ps => exact ⟨p, ps, rfl⟩
        rw [hS, show ([] : Str) :: p :: ps = [] :: (p :: ps) from rfl,
          sepJoin_cons_cons]
        rw [← hS, ih r hrlen]
        simpa using hr
      · have hrlen : rest.length ≤ n := by simp at hl; omega
        obtain ⟨p, ps, hS⟩ : ∃ p ps, splitOnSepF sep n rest = p :: ps := by
          cases hS' : splitOnSepF sep n rest with
          | nil => exact absurd hS' (splitOnSepF_ne_nil sep n rest)
          | cons p ps => exact ⟨p, ps, rfl⟩
        rw [hS, sepJoin_cons_head, ← hS, ih rest hrlen]

theorem sepJoin_splitOnSep (sep t : Str) : sepJoin sep (splitOnSep sep t) = t :=
  sepJoin_splitOnSepF sep t.length t le_rfl

theorem asmGo_ne_nil (S O : Nat) (sep : Str) : ∀ (us : List Str) (cur : Str),
    asmGo S O sep cur us ≠ [] := by
  intro us
  induction us with
  | nil => intro cur; simp [asmGo]
  | cons u us ih =>
    intro cur
    simp only [asmGo]
    split
    · exact ih _
    · simp

theorem lastN_length (O : Nat) (l : Str) :
    (lastN O l).length = min O l.length := by
  simp only [lastN, List.length_drop]
  omega

theorem lastN_suffix (O : Nat) (l : Str) :
    l.take (l.length - O) ++ lastN O l = l := by
  simp only [lastN]
  exact List.take_append_drop _ l

theorem drop_lastN_append (O : Nat) (prev b : Str) :
    (lastN O prev ++ b).drop (min O prev.length) = b := by
  rw [← lastN_length O prev]
  exact List.drop_left _ b

/-- Reconstruction across assembled pieces: each piece after the first
loses its actual overlap prefix, whose length is `chunk_overlap` — or
the whole preceding piece when that is shorter. -/
def piecesTail (O : Nat) : Str → List Str → Str
  | _, [] => []
  | prev, q :: qs => q.drop (min O prev.length) ++ piecesTail O q qs

/-- Reconstruction of a unit from its assembled pieces. -/
def piecesRecon (O : Nat) : List Str → Str
  | [] => []
  | p :: ps => p ++ piecesTail O p ps

theorem piecesTail_asmGo (S O : Nat) (sep : Str) :
    ∀ (us : List Str) (prev w : Str),
    piecesTail O prev (asmGo S O sep (lastN O prev ++ sep ++ w) us) =
      sep ++ sepJoin sep (w :: us) := by
  intro us
  induction us with
  | nil =>
    intro prev w
    show piecesTail O prev [lastN O prev ++ sep ++ w] = sep ++ w
    show (lastN O prev ++ sep ++ w).drop (min O prev.length) ++ [] = sep ++ w
    rw [List.append_nil, List.append_assoc, drop_lastN_append]
  | cons u us ih =>
    intro prev w
    simp only [asmGo]
    split
    · rw [show lastN O prev ++ sep ++ w ++ sep ++ u =
        lastN O prev ++ sep ++ (w ++ sep ++ u) by
          simp [List.append_assoc]]
      rw [ih prev (w ++ sep ++ u), sepJoin_glue, ← sepJoin_cons_cons]
    · show (lastN O prev ++ sep ++ w).drop (min O prev.length) ++
        piecesTail O (lastN O prev ++ sep ++ w)
          (asmGo S O sep
            (lastN O (lastN O prev ++ sep ++ w) ++ sep ++ u) us) =
        sep ++ sepJoin sep (w :: u :: us)
      rw [ih (lastN O prev ++ sep ++ w) u]
      rw [List.append_assoc (lastN O prev), drop_lastN_append]
      rw [sepJoin_cons_cons]
      simp [List.append_assoc]

theorem piecesRecon_asmGo (S O : Nat) (sep : Str) :
    ∀ (us : List Str) (cur : Str),
    piecesRecon O (asmGo S O sep cur us) = sepJoin sep (cur :: us) := by
  intro us
  induction us with
  | nil => intro cur; simp [asmGo, piecesRecon, piecesTail, sepJoin]
  | cons u us ih =>
    intro cur
    simp only [asmGo]
    split
    · rw [ih (cur ++ sep ++ u), sepJoin_glue, ← sepJoin_cons_cons]
    · show cur ++ piecesTail O cur
        (asmGo S O sep (lastN O cur ++ sep ++ u) us) =
        sepJoin sep (cur :: u :: us)
      rw [piecesTail_asmGo S O sep us cur u, sepJoin_cons_cons,
        List.append_assoc]

theorem piecesRecon_assemble (S O : Nat) (sep : Str) (us : List Str) :
    piecesRecon O (assemble S O sep us) = sepJoin sep us := by
  cases us with
  | nil => rfl
  | cons u us => exact piecesRecon_asmGo S O sep us u

theorem hardCutF_ne_nil (S O : Nat) : ∀ (fuel : Nat) (l : Str),
    hardCutF S O fuel l ≠ []
  | 0, l => by simp [hardCutF]
  | fuel + 1, l => by
    simp only [hardCutF]
    split <;> simp

theorem hardCutF_length_le (S O : Nat) (hO : O < S) : ∀ (fuel : Nat) (l : Str),
    l.length ≤ fuel → ∀ c ∈ hardCutF S O fuel l, c.length ≤ S := by
  intro fuel
  induction fuel with
  | zero =>
    intro l hl c hc
    have hnil : l = [] := by cases l <;> simp_all
    subst hnil
    simp [hardCutF] at hc
    subst hc
    simp
  | succ n ih =>
    intro l hl c hc
    simp only [hardCutF] at hc
    split at hc
    · rename_i h
      simp at hc
      subst hc
      rcases h with h | h
      · exact h
      · omega
    · rename_i h
      simp only [not_or] at h
      simp only [List.mem_cons] at hc
      rcases hc with hc | hc
      · subst hc; simp [List.length_take]
      · exact ih (l.drop (S - O)) (by simp [List.length_drop]; omega) c hc

theorem hardCut_length_le (S O : Nat) (hO : O < S) (l : Str) :
    ∀ c ∈ hardCut S O l, c.length ≤ S :=
  hardCutF_length_le S O hO l.length l le_rfl

theorem drop_flatten_cons (O : Nat) (c : Str) (cs : List Str) (hc : O ≤ c.length) :
    c.drop O ++ (cs.map (fun p => p.drop O)).flatten =
      (overlapRecon O (c :: cs)).drop O := by
  simp only [overlapRecon]
  rw [List.drop_append_of_le_length hc]

theorem hardCutF_recon (S O : Nat) (hO : O < S) : ∀ (fuel : Nat) (l : Str),
    l.length ≤ fuel →
    overlapRecon O (hardCutF S O fuel l) = l ∧
    (∀ c cs, hardCutF S O fuel l = c :: cs → min S l.length ≤ c.length) := by
  intro fuel
  induction fuel with
  | zero =>
    intro l hl
    have hnil : l = [] := by cases l <;> simp_all
    subst hnil
    refine ⟨by simp [hardCutF, overlapRecon], ?_⟩
    intro c cs h
    simp only [hardCutF] at h
    injection h with h1 h2
    subst h1
    simp
  | succ n ih =>
    intro l hl
    simp only [hardCutF]
    split
    · rename_i h
      refine ⟨by simp [overlapRecon], ?_⟩
      intro c cs hccs
      injection hccs with h1 h2
      subst h1
      rcases h with h | h
      · omega
      · omega
    · rename_i h
      simp only [not_or] at h
      have hlen : (l.drop (S - O)).length ≤ n := by
        simp [List.length_drop]; omega
      obtain ⟨ihr, ihh⟩ := ih (l.drop (S - O)) hlen
      obtain ⟨c, cs, hS⟩ : ∃ c cs, hardCutF S O n (l.drop (S - O)) = c :: cs := by
        cases hS' : hardCutF S O n (l.drop (S - O)) with
        | nil => exact absurd hS' (hardCutF_ne_nil S O n _)
        | cons c cs => exact ⟨c, cs, rfl⟩
      have hchead : O ≤ c.length := by
        have := ihh c cs hS
        simp [List.length_drop] at this
        omega
      have hrecon : overlapRecon O (c :: cs) = l.drop (S - O) := hS ▸ ihr
      constructor
      · show overlapRecon O (l.take S :: hardCutF S O n (l.drop (S - O))) = l
        rw [hS]
        show l.take S ++ ((c :: cs).map (fun p => p.drop O)).flatten = l
        simp only [List.map_cons, List.flatten_cons]
        rw [drop_flatten_cons O c cs hchead, hrecon, List.drop_drop,
          show S - O + O = S by omega, List.take_append_drop]
      · intro c' cs' hccs
        injection hccs with h1 h2
        subst h1
        simp [List.length_take]

theorem hardCut_recon (S O : Nat) (hO : O < S) (l : Str) :
    overlapRecon O (hardCut S O l) = l :=
  (hardCutF_recon S O hO l.length l le_rfl).1

theorem hardCut_small (S O : Nat) (t : Str) (ht : t.length ≤ S) :
    hardCut S O t = [t] := by
  unfold hardCut
  cases h : t.length with
  | zero => rfl
  | succ m => simp [hardCutF, ht]

theorem splitOnSep_ne_nil (sep t : Str) : splitOnSep sep t ≠ [] :=
  splitOnSepF_ne_nil sep t.length t

/-- Per-unit reconstruction: re-reading each hard-cut group as its piece
(overlap of `chunk_overlap` inside a group) and dropping every later
piece's actual overlap prefix reproduces the normalized unit. -/
theorem fixedSplitGroups_recon (S O : Nat) (hO : O < S) (sep t : Str) :
    piecesRecon O ((fixedSplitGroups S O sep t).map (overlapRecon O)) = t := by
  unfold fixedSplitGroups
  rw [List.map_map]
  have hmap : (assemble S O sep (splitOnSep sep t)).map
      (overlapRecon O ∘ hardCut S O) =
      (assemble S O sep (splitOnSep sep t)).map id := by
    apply List.map_congr_left
    intro p _
    exact hardCut_recon S O hO p
  rw [hmap, List.map_id, piecesRecon_assemble, sepJoin_splitOnSep]

theorem overlapRecon_append (O : Nat) (a : Str) (as B : List Str) :
    overlapRecon O ((a :: as) ++ B) =
      overlapRecon O (a :: as) ++ (B.map (fun p => p.drop O)).flatten := by
  simp [overlapRecon, List.map_append, List.append_assoc]

theorem hardCut_head_le (S O : Nat) (hO : O < S) (l : Str)
    (hl : O ≤ l.length) (c : Str) (cs : List Str)
    (h : hardCut S O l = c :: cs) : O ≤ c.length := by
  have h2 := (hardCutF_recon S O hO l.length l le_rfl).2 c cs h
  omega

theorem flat_piecesTail (S O : Nat) (hO : O < S) :
    ∀ (ps : List Str) (prev : Str), (∀ p ∈ ps, O ≤ p.length) →
    O ≤ prev.length →
    ((((ps.map (hardCut S O)).flatten).map (fun p => p.drop O)).flatten) =
      piecesTail O prev ps := by
  intro ps
  induction ps with
  | nil => intro prev _ _; rfl
  | cons q qs ih =>
    intro prev hall hprev
    have hq : O ≤ q.length := hall q (by simp)
    obtain ⟨c, cs, hq2⟩ : ∃ c cs, hardCut S O q = c :: cs := by
      cases h' : hardCut S O q with
      | nil => exact absurd h' (hardCutF_ne_nil S O q.length q)
      | cons c cs => exact ⟨c, cs, rfl⟩
    have hc : O ≤ c.length := hardCut_head_le S O hO q hq c cs hq2
    have hrecon : overlapRecon O (c :: cs) = q := by
      rw [← hq2]
      exact hardCut_recon S O hO q
    show ((((hardCut S O q :: qs.map (hardCut S O)).flatten).map
      (fun p => p.drop O)).flatten) =
      q.drop (min O prev.length) ++ piecesTail O q qs
    rw [hq2, Nat.min_eq_left hprev,
      ← ih q (fun a ha => hall a (by simp [ha])) hq]
    rw [List.flatten_cons, List.map_append, List.flatten_append,
      List.map_cons, List.flatten_cons]
    rw [← hrecon, ← drop_flatten_cons O c cs hc]

/-- When every assembled piece carries at least `chunk_overlap`
characters, dropping exactly `chunk_overlap` characters from each chunk
after the first within the unit reproduces the unit. -/
theorem overlapRecon_fixedSplit (S O : Nat) (hO : O < S) (sep t : Str)
    (hp : ∀ p ∈ assemble S O sep (splitOnSep sep t), O ≤ p.length) :
    overlapRecon O (fixedSplit S O sep t) = t := by
  unfold fixedSplit fixedSplitGroups
  cases hasm : assemble S O sep (splitOnSep sep t) with
  | nil =>
    exfalso
    obtain ⟨u, us, hu⟩ : ∃ u us, splitOnSep sep t = u :: us := by
      cases h' : splitOnSep sep t with
      | nil => exact absurd h' (splitOnSep_ne_nil sep t)
      | cons u us => exact ⟨u, us, rfl⟩
    rw [hu] at hasm
    exact absurd hasm (asmGo_ne_nil S O sep us u)
  | cons p ps =>
    have hp1 : O ≤ p.length := hp p (by rw [hasm]; simp)
    have hps : ∀ q ∈ ps, O ≤ q.length := fun q hq =>
      hp q (by rw [hasm]; simp [hq])
    obtain ⟨c, cs, hc⟩ : ∃ c cs, hardCut S O p = c :: cs := by
      cases h' : hardCut S O p with
      | nil => exact absurd h' (hardCutF_ne_nil S O p.length p)
      | cons c cs => exact ⟨c, cs, rfl⟩
    rw [List.map_cons, List.flatten_cons, hc,
      overlapRecon_append O c cs ((ps.map (hardCut S O)).flatten)]
    rw [show overlapRecon O (c :: cs) = p from by
      rw [← hc]; exact hardCut_recon S O hO p]
    rw [flat_piecesTail S O hO ps p hps hp1]
    show piecesRecon O (p :: ps) = t
    rw [← hasm, piecesRecon_assemble, sepJoin_splitOnSep]

theorem fixedSplit_length_le (S O : Nat) (hO : O < S) (sep t : Str) :
    ∀ c ∈ fixedSplit S O sep t, c.length ≤ S := by
  intro c hc
  unfold fixedSplit fixedSplitGroups at hc
  rw [List.mem_flatten] at hc
  obtain ⟨g, hg, hcg⟩ := hc
  rw [List.mem_map] at hg
  obtain ⟨p, _, rfl⟩ := hg
  exact hardCut_length_le S O hO p c hcg

theorem length_le_sepJoin_cons (sep b : Str) (r : List Str) :
    b.length ≤ (sepJoin sep (b :: r)).length := by
  cases r with
  | nil => simp [sepJoin]
  | cons q qs => rw [sepJoin_cons_cons]; simp [List.length_append]

theorem asmGo_small (S O : Nat) (sep : Str) : ∀ (us : List Str) (cur : Str),
    (sepJoin sep (cur :: us)).length ≤ S →
    asmGo S O sep cur us = [sepJoin sep (cur :: us)] := by
  intro us
  induction us with
  | nil => intro cur h; simp [asmGo, sepJoin]
  | cons u us ih =>
    intro cur h
    have hmono := length_le_sepJoin_cons sep u us
    have hfit : (cur ++ sep ++ u).length ≤ S := by
      rw [sepJoin_cons_cons] at h
      simp only [List.length_append] at h ⊢
      omega
    simp only [asmGo, if_pos hfit]
    rw [ih (cur ++ sep ++ u)
      (by rw [sepJoin_glue, ← sepJoin_cons_cons]; exact h),
      sepJoin_glue, ← sepJoin_cons_cons]

/-- A text already within the size bound passes the fixed-size splitter
unchanged. -/
theorem fixedSplit_small (S O : Nat) (sep t : Str) (ht : t.length ≤ S) :
    fixedSplit S O sep t = [t] := by
  unfold fixedSplit fixedSplitGroups
  obtain ⟨u, us, hu⟩ : ∃ u us, splitOnSep sep t = u :: us := by
    cases h' : splitOnSep sep t with
    | nil => exact absurd h' (splitOnSep_ne_nil sep t)
    | cons u us => exact ⟨u, us, rfl⟩
  have hjoin : sepJoin sep (u :: us) = t := by
    rw [← hu, sepJoin_splitOnSep]
  rw [hu]
  show ((asmGo S O sep u us).map (hardCut S O)).flatten = [t]
  rw [asmGo_small S O sep us u (by rw [hjoin]; exact ht), hjoin]
  simp [hardCut_small S O t ht]

theorem splitOnSepF_absent (s0 : Char) (ss : Str) : ∀ (fuel : Nat) (l : Str),
    s0 ∉ l → splitOnSepF (s0 :: ss) fuel l = [l] := by
  intro fuel
  induction fuel with
  | zero => intro l _; cases l <;> simp [splitOnSepF]
  | succ n ih =>
    intro l hl
    cases l with
    | nil => simp [splitOnSepF]
    | cons c rest =>
      have hs0c : s0 ≠ c := by
        intro hh
        exact hl (by simp [hh])
      simp only [splitOnSepF]
      rw [if_neg]
      · rw [ih rest (fun hr => hl (by simp [hr]))]
      · intro ⟨_, hlw⟩
        unfold leadsWith at hlw
        simp only [Bool.and_eq_true, decide_eq_true_eq] at hlw
        exact hs0c hlw.1

theorem hardCutF_fuel (S O : Nat) : ∀ (f1 f2 : Nat) (l : Str),
    l.length ≤ f1 → l.length ≤ f2 → hardCutF S O f1 l = hardCutF S O f2 l := by
  intro f1
  induction f1 with
  | zero =>
    intro f2 l h1 h2
    have hl : l = [] := by cases l <;> simp_all
    subst hl
    cases f2 with
    | zero => rfl
    | succ m => simp [hardCutF]
  | succ n ih =>
    intro f2 l h1 h2
    cases f2 with
    | zero =>
      have hl : l = [] := by cases l <;> simp_all
      subst hl
      simp [hardCutF]
    | succ m =>
      simp only [hardCutF]
      split
      · rfl
      · rename_i hcond
        simp only [not_or] at hcond
        rw [ih m (l.drop (S - O)) (by simp [List.length_drop]; omega)
          (by simp [List.length_drop]; omega)]

theorem hardCut_step (S O : Nat) (t : Str) (h1 : ¬ t.length ≤ S)
    (h2 : S - O ≠ 0) :
    hardCut S O t = t.take S :: hardCut S O (t.drop (S - O)) := by
  unfold hardCut
  cases ht : t.length with
  | zero => omega
  | succ m =>
    rw [show hardCutF S O (m + 1) t =
      if t.length ≤ S ∨ S - O = 0 then [t]
      else t.take S :: hardCutF S O m (t.drop (S - O)) from rfl]
    rw [if_neg (by omega)]
    rw [hardCutF_fuel S O m (t.drop (S - O)).length (t.drop (S - O))
      (by simp [List.length_drop]; omega) le_rfl]

theorem fixedSplit_single_unit (S O : Nat) (s0 : Char) (ss t : Str)
    (h : s0 ∉ t) :
    fixedSplit S O (s0 :: ss) t = hardCut S O t := by
  unfold fixedSplit fixedSplitGroups splitOnSep
  rw [splitOnSepF_absent s0 ss t.length t h]
  show ((asmGo S O (s0 :: ss) t []).map (hardCut S O)).flatten = _
  simp [asmGo]

theorem mem_asmGo_sub (S O : Nat) (sep : Str) : ∀ (us : List Str) (cur p : Str),
    p ∈ asmGo S O sep cur us → ∃ a b, a ++ p ++ b = sepJoin sep (cur :: us) := by
  intro us
  induction us with
  | nil =>
    intro cur p hp
    simp [asmGo] at hp
    subst hp
    exact ⟨[], [], by simp [sepJoin]⟩
  | cons u us ih =>
    intro cur p hp
    simp only [asmGo] at hp
    split at hp
    · obtain ⟨a, b, hab⟩ := ih _ p hp
      exact ⟨a, b, by rw [hab, sepJoin_glue, ← sepJoin_cons_cons]⟩
    · rcases List.mem_cons.1 hp with rfl | hp
      · refine ⟨[], sep ++ sepJoin sep (u :: us), ?_⟩
        rw [sepJoin_cons_cons]
        simp [List.append_assoc]
      · obtain ⟨a, b, hab⟩ := ih (lastN O cur ++ sep ++ u) p hp
        rw [sepJoin_glue] at hab
        refine ⟨cur.take (cur.length - O) ++ a, b, ?_⟩
        rw [sepJoin_cons_cons]
        calc cur.take (cur.length - O) ++ a ++ p ++ b
            = cur.take (cur.length - O) ++ (a ++ p ++ b) := by
              simp [List.append_assoc]
          _ = cur.take (cur.length - O) ++
              (lastN O cur ++ sep ++ sepJoin sep (u :: us)) := by rw [hab]
          _ = (cur.take (cur.length - O) ++ lastN O cur) ++ sep ++
              sepJoin sep (u :: us) := by simp [List.append_assoc]
          _ = cur ++ sep ++ sepJoin sep (u :: us) := by
              rw [lastN_suffix]

theorem mem_hardCutF_sub (S O : Nat) : ∀ (fuel : Nat) (l c : Str),
    c ∈ hardCutF S O fuel l → ∃ a b, a ++ c ++ b = l := by
  intro fuel
  induction fuel with
  | zero =>
    intro l c hc
    simp [hardCutF] at hc
    subst hc
    exact ⟨[], [], by simp⟩
  | succ n ih =>
    intro l c hc
    simp only [hardCutF] at hc
    split at hc
    · simp at hc
      subst hc
      exact ⟨[], [], by simp⟩
    · rcases List.mem_cons.1 hc with rfl | hc
      · exact ⟨[], l.drop S, by simp⟩
      · obtain ⟨a, b, hab⟩ := ih _ c hc
        refine ⟨l.take (S - O) ++ a, b, ?_⟩
        rw [List.append_assoc] at hab ⊢
        rw [List.append_assoc, hab, List.take_append_drop]

/-- Every chunk the fixed-size splitter emits is a contiguous substring
of the unit it was cut from. -/
theorem mem_fixedSplit_sub (S O : Nat) (sep t c : Str)
    (hc : c ∈ fixedSplit S O sep t) : ∃ a b, a ++ c ++ b = t := by
  unfold fixedSplit fixedSplitGroups at hc
  rw [List.mem_flatten] at hc
  obtain ⟨g, hg, hcg⟩ := hc
  rw [List.mem_map] at hg
  obtain ⟨p, hp, rfl⟩ := hg
  obtain ⟨a, b, hab⟩ := mem_hardCutF_sub S O p.length p c hcg
  obtain ⟨u, us, hu⟩ : ∃ u us, splitOnSep sep t = u :: us := by
    cases h' : splitOnSep sep t with
    | nil => exact absurd h' (splitOnSep_ne_nil sep t)
    | cons u us => exact ⟨u, us, rfl⟩
  have hjoin : sepJoin sep (u :: us) = t := by
    rw [← hu, sepJoin_splitOnSep]
  rw [hu] at hp
  obtain ⟨a', b', hab'⟩ := mem_asmGo_sub S O sep us u p hp
  refine ⟨a' ++ a, b ++ b', ?_⟩
  rw [← hjoin, ← hab', ← hab]
  simp [List.append_assoc]

/-- `noBBRel a b`: the two characters are not both newlines. -/
def noBBRel (a b : Char) : Prop := ¬(a = '\n' ∧ b = '\n')

/-- `noBB l`: the text contains no two adjacent newline characters,
hence no blank-line boundary. -/
def noBB (l : Str) : Prop := l.Chain' noBBRel

theorem noBB_sub (a c b : Str) (h : noBB (a ++ c ++ b)) : noBB c := by
  rw [List.append_assoc] at h
  have h2 := (List.chain'_append.1 h).2.1
  exact (List.chain'_append.1 h2).1

theorem dropNL_length_le (l : List Char) : (dropNL l).length ≤ l.length := by
  induction l with
  | nil => simp [dropNL]
  | cons c t ih =>
    simp only [dropNL]
    split
    · exact le_trans ih (by simp)
    · exact le_rfl

/-- Every block the blank-line tokenizer emits is free of blank-line
boundaries. -/
theorem blanklineAuxF_noBB : ∀ (fuel : Nat) (l : List Char) (acc : Str),
    l.length ≤ fuel → noBB acc →
    (∀ a, acc.getLast? = some a → ∀ c, l.head? = some c → noBBRel a c) →
    ∀ b ∈ blanklineAuxF fuel l acc, noBB b := by
  intro fuel
  induction fuel with
  | zero =>
    intro l acc hl hacc hbd b hb
    have hnil : l = [] := by cases l <;> simp_all
    subst hnil
    simp only [blanklineAuxF] at hb
    split at hb
    · simp at hb
    · simp at hb
      subst hb
      exact hacc
  | succ n ih =>
    intro l acc hl hacc hbd b hb
    cases l with
    | nil =>
      simp only [blanklineAuxF] at hb
      split at hb
      · simp at hb
      · simp at hb
        subst hb
        exact hacc
    | cons c rest =>
      have hrest : rest.length ≤ n := by simp at hl; omega
      simp only [blanklineAuxF] at hb
      split at hb
      · have hdlen : (dropNL rest).length ≤ n :=
          le_trans (dropNL_length_le rest) hrest
        split at hb
        · exact ih (dropNL rest) [] hdlen List.chain'_nil (by simp) b hb
        · rcases List.mem_cons.1 hb with rfl | hb
          · exact hacc
          · exact ih (dropNL rest) [] hdlen List.chain'_nil (by simp) b hb
      · rename_i hcond
        apply ih rest (acc ++ [c]) hrest ?_ ?_ b hb
        · rw [noBB, List.chain'_append]
          refine ⟨hacc, List.chain'_singleton c, ?_⟩
          intro x hx y hy
          simp at hy
          subst hy
          exact hbd x hx c (by simp)
        · intro a ha c' hc'
          rw [List.getLast?_concat] at ha
          have hac : c = a := by simpa using ha
          subst hac
          intro ⟨h1, h2⟩
          apply hcond
          refine ⟨h1, ?_⟩
          cases rest with
          | nil => simp at hc'
          | cons r rs =>
            simp at hc'
            subst hc'
            simpa using h2

/-- A nonempty text without blank-line boundaries is one single block. -/
theorem blanklineAuxF_ident : ∀ (fuel : Nat) (l acc : Str),
    l.length ≤ fuel → noBB (acc ++ l) → acc ++ l ≠ [] →
    blanklineAuxF fuel l acc = [acc ++ l] := by
  intro fuel
  induction fuel with
  | zero =>
    intro l acc hl hno hne
    have hnil : l = [] := by cases l <;> simp_all
    subst hnil
    simp only [blanklineAuxF]
    rw [if_neg]
    · simp
    · simp only [List.isEmpty_iff]
      simpa using hne
  | succ n ih =>
    intro l acc hl hno hne
    cases l with
    | nil =>
      simp only [blanklineAuxF]
      rw [if_neg]
      · simp
      · simp only [List.isEmpty_iff]
        simpa using hne
    | cons c rest =>
      have hrest : rest.length ≤ n := by simp at hl; omega
      simp only [blanklineAuxF]
      rw [if_neg]
      · rw [ih rest (acc ++ [c]) hrest (by simpa [List.append_assoc] using hno)
          (by simp)]
        simp
      · intro ⟨h1, h2⟩
        cases rest with
        | nil => simp at h2
        | cons r rs =>
          have hr : r = '\n' := by simpa using h2
          subst hr h1
          have hsuf : List.Chain' noBBRel ('\n' :: '\n' :: rs) :=
            (List.chain'_append.1 hno).2.1
          exact (List.chain'_cons.1 hsuf).1 ⟨rfl, rfl⟩

theorem blankline_tokenize_noBB (t : Str) :
    ∀ b ∈ blankline_tokenize t, noBB b :=
  blanklineAuxF_noBB t.length t [] le_rfl List.chain'_nil (by simp)

theorem blankline_tokenize_ident (t : Str) (hno : noBB t) (hne : t ≠ []) :
    blankline_tokenize t = [t] := by
  unfold blankline_tokenize
  rw [blanklineAuxF_ident t.length t [] le_rfl (by simpa) (by simpa)]
  simp

/-- `normalize` is the identity on one-element lists. -/
theorem normalize_singleton (r : Item) (L : Nat) : normalize [r] L = [r] := by
  simp only [normalize, normGo]
  split <;> rfl

theorem preprocessDoc_nonTabular (S : Nat) (d : PreDoc)
    (h : isTabular d.metadata = false) :
    preprocessDoc S d =
      [{ page_content := d.page_content,
         metadata := { d.metadata with
           page := some (d.metadata.page.getD 0) } }] := by
  simp [preprocessDoc, h, normalize_singleton]

theorem preprocessDoc_tabular (S : Nat) (d : PreDoc)
    (h : isTabular d.metadata = true) :
    preprocessDoc S d =
      (blankline_tokenize d.page_content).map (fun row =>
        { page_content := row,
          metadata := { d.metadata with
            page := some (d.metadata.page.getD 0),
            source := some (d.metadata.source.getD []) } }) := by
  simp [preprocessDoc, h, xls_normalize]

theorem mapWithIdx_length (f : Nat → α → β) : ∀ (k : Nat) (l : List α),
    (mapWithIdx f k l).length = l.length := by
  intro k l
  induction l generalizing k with
  | nil => rfl
  | cons a as ih => simp [mapWithIdx, ih]

theorem mapWithIdx_map (f : Nat → α → β) (g : β → γ) : ∀ (k : Nat) (l : List α),
    (mapWithIdx f k l).map g = mapWithIdx (fun i a => g (f i a)) k l := by
  intro k l
  induction l generalizing k with
  | nil => rfl
  | cons a as ih => simp [mapWithIdx, ih]

theorem mapWithIdx_const (h : α → β) : ∀ (k : Nat) (l : List α),
    mapWithIdx (fun _ a => h a) k l = l.map h := by
  intro k l
  induction l generalizing k with
  | nil => rfl
  | cons a as ih => simp [mapWithIdx, ih]

theorem mapWithIdx_idx (g : Nat → β) : ∀ (k : Nat) (l : List α),
    mapWithIdx (fun i _ => g i) k l = (List.range' k l.length).map g := by
  intro k l
  induction l generalizing k with
  | nil => rfl
  | cons a as ih => simp [mapWithIdx, ih, List.range']

theorem mapWithIdx_getElem (f : Nat → α → β) : ∀ (k : Nat) (l : List α)
    (i : Nat) (h : i < l.length) (h' : i < (mapWithIdx f k l).length),
    (mapWithIdx f k l)[i] = f (k + i) l[i] := by
  intro k l
  induction l generalizing k with
  | nil => intro i h h'; simp at h
  | cons a as ih =>
    intro i h h'
    cases i with
    | zero => simp [mapWithIdx]
    | succ j =>
      simp only [mapWithIdx, List.getElem_cons_succ]
      rw [ih (k + 1) j (by simpa using h)
        (by rw [mapWithIdx_length]; simpa using h)]
      ring_nf

theorem mapWithIdx_mem (f : Nat → α → β) (k : Nat) (l : List α) (b : β)
    (hb : b ∈ mapWithIdx f k l) :
    ∃ i, ∃ h : i < l.length, b = f (k + i) l[i] := by
  rw [List.mem_iff_getElem] at hb
  obtain ⟨i, hi, hb⟩ := hb
  have hil : i < l.length := by rw [mapWithIdx_length] at hi; exact hi
  exact ⟨i, hil, by rw [← hb, mapWithIdx_getElem f k l i hil hi]⟩

theorem numberChunks_length (ds : List PreDoc) :
    (numberChunks ds).length = ds.length := mapWithIdx_length _ 0 ds

theorem numberChunks_getElem (ds : List PreDoc) (i : Nat) (h : i < ds.length)
    (h' : i < (numberChunks ds).length) :
    (numberChunks ds)[i] =
      { ds[i] with metadata :=
        { ds[i].metadata with chunk_num := some (i + 1) } } := by
  unfold numberChunks
  rw [mapWithIdx_getElem _ 0 ds i h h']
  simp

theorem docsToCoreDocs_length (ds : List PreDoc) :
    (docsToCoreDocs ds).length = ds.length := mapWithIdx_length _ 0 ds

theorem docsToCoreDocs_getElem (ds : List PreDoc) (i : Nat) (h : i < ds.length)
    (h' : i < (docsToCoreDocs ds).length) :
    (docsToCoreDocs ds)[i] =
      { id := mkId ds[i].metadata i, content := ds[i].page_content,
        metadata := ds[i].metadata } := by
  unfold docsToCoreDocs
  rw [mapWithIdx_getElem _ 0 ds i h h']
  simp

theorem numberChunks_chunk_num_aux : ∀ (k : Nat) (ds : List PreDoc),
    (mapWithIdx
      (fun i d =>
        { d with metadata := { d.metadata with chunk_num := some (i + 1) } })
      k ds).map (fun d => d.metadata.chunk_num) =
      (List.range' (k + 1) ds.length).map (fun i => some i) := by
  intro k ds
  induction ds generalizing k with
  | nil => rfl
  | cons d ds ih => simp [mapWithIdx, ih, List.range']

theorem numberChunks_chunk_num (ds : List PreDoc) :
    (numberChunks ds).map (fun d => d.metadata.chunk_num) =
      (List.range' 1 ds.length).map (fun i => some i) :=
  numberChunks_chunk_num_aux 0 ds

theorem split_text_ok (cfg : Config) (docs : List InDoc) (pre : List PreDoc)
    (hpre : toPreDocs docs = Except.ok pre) (hcfg : checkConfig cfg = false) :
    split_text cfg docs =
      Except.ok (docsToCoreDocs (numberChunks
        (splitStage cfg (pre.flatMap (preprocessDoc cfg.chunk_size))))) := by
  simp [split_text, hpre, hcfg]

theorem split_text_invalid (cfg : Config) (docs : List InDoc) (pre : List PreDoc)
    (hpre : toPreDocs docs = Except.ok pre) (hcfg : checkConfig cfg = true) :
    split_text cfg docs = Except.error SplitError.invalidConfiguration := by
  simp [split_text, hpre, hcfg]

theorem digitChar_toNat (d : Nat) (hd : d < 10) : (digitChar d).toNat = 48 + d := by
  interval_cases d <;> rfl

theorem digitChar_ne_us (d : Nat) (hd : d < 10) : digitChar d ≠ '_' := by
  interval_cases d <;> decide

theorem digitChar_inj (d e : Nat) (hd : d < 10) (he : e < 10)
    (h : digitChar d = digitChar e) : d = e := by
  have h2 := congrArg Char.toNat h
  rw [digitChar_toNat d hd, digitChar_toNat e he] at h2
  omega

theorem map_digitChar_inj : ∀ (xs ys : List Nat), (∀ x ∈ xs, x < 10) →
    (∀ y ∈ ys, y < 10) → xs.map digitChar = ys.map digitChar → xs = ys := by
  intro xs
  induction xs with
  | nil => intro ys _ _ h; cases ys <;> simp_all
  | cons x xs ih =>
    intro ys hxs hys h
    cases ys with
    | nil => simp at h
    | cons y ys =>
      simp only [List.map_cons, List.cons.injEq] at h
      have hx : x = y :=
        digitChar_inj x y (hxs x (by simp)) (hys y (by simp)) h.1
      rw [hx, ih ys (fun a ha => hxs a (by simp [ha]))
        (fun a ha => hys a (by simp [ha])) h.2]

theorem decRepr_digits_lt (n : Nat) : ∀ d ∈ Nat.digits 10 n, d < 10 := by
  intro d hd
  exact Nat.digits_lt_base (by norm_num) hd

theorem decReprF_eq_digits : ∀ (fuel n : Nat), n ≤ fuel →
    decReprF fuel n = (Nat.digits 10 n).map digitChar := by
  intro fuel
  induction fuel with
  | zero =>
    intro n hn
    have hn0 : n = 0 := by omega
    subst hn0
    simp [decReprF]
  | succ f ih =>
    intro n hn
    cases n with
    | zero => simp [decReprF]
    | succ m =>
      rw [show decReprF (f + 1) (m + 1) =
        digitChar ((m + 1) % 10) :: decReprF f ((m + 1) / 10) from rfl]
      rw [Nat.digits_def' (by norm_num : 1 < 10) (Nat.succ_pos m),
        List.map_cons]
      rw [ih ((m + 1) / 10)
        (by
          have := Nat.div_lt_self (Nat.succ_pos m) (by norm_num : 1 < 10)
          omega)]

theorem decRepr_eq_digits (n : Nat) : decRepr n =
    if n = 0 then ['0'] else ((Nat.digits 10 n).map digitChar).reverse := by
  unfold decRepr
  split
  · rfl
  · rw [decReprF_eq_digits n n le_rfl]

theorem decRepr_inj : Function.Injective decRepr := by
  intro m n h
  rw [decRepr_eq_digits, decRepr_eq_digits] at h
  split at h <;> split at h
  · rename_i hm hn; rw [hm, hn]
  · rename_i hm hn
    exfalso
    have h2 := congrArg List.reverse h
    simp only [List.reverse_reverse] at h2
    have h3 : Nat.digits 10 n = [0] := by
      cases hd : Nat.digits 10 n with
      | nil => rw [hd] at h2; simp at h2
      | cons d ds =>
        rw [hd] at h2
        cases ds with
        | nil =>
          simp only [List.map_cons, List.map_nil, List.reverse_cons,
            List.reverse_nil, List.nil_append, List.cons.injEq] at h2
          have hd10 : d < 10 := by
            apply decRepr_digits_lt n
            rw [hd]; simp
          have hd0 : d = 0 := (digitChar_inj 0 d (by norm_num) hd10 h2.1).symm
          rw [hd0]
        | cons e es => simp at h2
    have := Nat.ofDigits_digits 10 n
    rw [h3] at this
    simp [Nat.ofDigits] at this
    exact hn this.symm
  · rename_i hm hn
    exfalso
    have h2 := congrArg List.reverse h
    simp only [List.reverse_reverse] at h2
    have h3 : Nat.digits 10 m = [0] := by
      cases hd : Nat.digits 10 m with
      | nil => rw [hd] at h2; simp at h2
      | cons d ds =>
        rw [hd] at h2
        cases ds with
        | nil =>
          simp only [List.map_cons, List.map_nil, List.reverse_cons,
            List.reverse_nil, List.nil_append, List.cons.injEq] at h2
          have hd10 : d < 10 := by
            apply decRepr_digits_lt m
            rw [hd]; simp
          have hd0 : d = 0 := digitChar_inj d 0 hd10 (by norm_num) h2.1
          rw [hd0]
        | cons e es => simp at h2
    have := Nat.ofDigits_digits 10 m
    rw [h3] at this
    simp [Nat.ofDigits] at this
    exact hm this.symm
  · rename_i hm hn
    have h2 := congrArg List.reverse h
    simp only [List.reverse_reverse] at h2
    have h3 := map_digitChar_inj (Nat.digits 10 m) (Nat.digits 10 n)
      (decRepr_digits_lt m) (decRepr_digits_lt n) h2
    have h4 := Nat.ofDigits_digits 10 m
    rw [h3, Nat.ofDigits_digits 10 n] at h4
    exact h4.symm

theorem decRepr_ne_us (n : Nat) : ∀ c ∈ decRepr n, c ≠ '_' := by
  intro c hc
  rw [decRepr_eq_digits] at hc
  split at hc
  · simp at hc; rw [hc]; decide
  · rw [List.mem_reverse, List.mem_map] at hc
    obtain ⟨d, hd, rfl⟩ := hc
    exact digitChar_ne_us d (decRepr_digits_lt n d hd)

/-- The digits after the last underscore of a chunk id. -/
def afterLastUS (l : Str) : Str :=
  (l.reverse.takeWhile (fun c => decide (c ≠ '_'))).reverse

theorem takeWhile_append_stop (p : Char → Bool) (y : Char) (hy : p y = false) :
    ∀ (xs r : List Char), (∀ x ∈ xs, p x = true) →
    (xs ++ y :: r).takeWhile p = xs := by
  intro xs
  induction xs with
  | nil => intro r _; simp [List.takeWhile_cons, hy]
  | cons x xs ih =>
    intro r hall
    simp only [List.cons_append, List.takeWhile_cons, hall x (by simp)]
    simp [ih r (fun a ha => hall a (by simp [ha]))]

theorem afterLastUS_mkId (m : Metadata) (i : Nat) :
    afterLastUS (mkId m i) = decRepr i := by
  unfold afterLastUS mkId
  rw [List.reverse_append, List.reverse_append]
  simp only [List.reverse_cons, List.reverse_nil, List.nil_append,
    List.cons_append]
  rw [show ('_' :: (m.source.getD "unknown".toList).reverse) =
    [] ++ '_' :: (m.source.getD "unknown".toList).reverse from rfl]
  rw [← List.append_assoc]
  rw [takeWhile_append_stop _ '_' (by simp) _ _ ?_]
  · simp
  · intro x hx
    simp only [List.append_nil, List.mem_reverse] at hx
    simpa using decRepr_ne_us i x hx

theorem ids_nodup (ds : List PreDoc) :
    ((docsToCoreDocs ds).map (fun c => c.id)).Nodup := by
  unfold docsToCoreDocs
  rw [mapWithIdx_map]
  simp only
  apply List.Nodup.of_map afterLastUS
  rw [mapWithIdx_map]
  have hfun : (fun (i : Nat) (a : PreDoc) => afterLastUS (mkId a.metadata i)) =
      (fun (i : Nat) (_ : PreDoc) => decRepr i) := by
    funext i a
    exact afterLastUS_mkId a.metadata i
  rw [hfun, mapWithIdx_idx]
  exact List.Nodup.map decRepr_inj (List.nodup_range' 0 ds.length)

theorem flatMap_eq_self (g : α → List α) : ∀ (l : List α),
    (∀ a ∈ l, g a = [a]) → l.flatMap g = l := by
  intro l
  induction l with
  | nil => intro _; rfl
  | cons a as ih =>
    intro h
    rw [List.flatMap_cons, h a (by simp), ih (fun x hx => h x (by simp [hx]))]
    rfl

theorem isTabular_of_source_eq (m m' : Metadata) (h : m.source = m'.source) :
    isTabular m = isTabular m' := by
  simp [isTabular, h]

theorem isTabular_source_some (m : Metadata) (h : isTabular m = true) :
    m.source = some (m.source.getD []) := by
  cases hs : m.source with
  | some fp => rfl
  | none =>
    exfalso
    unfold isTabular at h
    rw [hs] at h
    exact absurd h (by decide)

theorem metadata_page_update (m : Metadata) (x : Option Int) (h : m.page = x) :
    ({ m with page := x } : Metadata) = m := by
  cases m; simp_all

theorem metadata_page_source_update (m : Metadata) (x : Option Int)
    (y : Option Str) (hx : m.page = x) (hy : m.source = y) :
    ({ m with
      page := x,
      source := y } : Metadata) = m := by
  cases m; simp_all

/-- A chunk-shaped document (page present; if tabular: nonempty content
with no blank-line boundary) passes preprocessing unchanged. -/
theorem preprocessDoc_chunk (S : Nat) (d : PreDoc)
    (hpage : ∃ p, d.metadata.page = some p)
    (htab : isTabular d.metadata = true →
      noBB d.page_content ∧ d.page_content ≠ []) :
    preprocessDoc S d = [d] := by
  obtain ⟨p, hp⟩ := hpage
  cases h : isTabular d.metadata with
  | false =>
    rw [preprocessDoc_nonTabular S d h, hp]
    simp only [Option.getD_some]
    rw [metadata_page_update d.metadata (some p) hp]
  | true =>
    obtain ⟨hno, hne⟩ := htab h
    rw [preprocessDoc_tabular S d h, blankline_tokenize_ident _ hno hne, hp]
    have hsrc := isTabular_source_some d.metadata h
    simp only [List.map_cons, List.map_nil, Option.getD_some]
    rw [metadata_page_source_update d.metadata (some p)
      (some (d.metadata.source.getD [])) hp hsrc]

theorem splitStage_eq_self (cfg : Config) (l : List PreDoc)
    (h : ∀ d ∈ l,
      fixedSplit cfg.chunk_size cfg.chunk_overlap cfg.separator
        d.page_content = [d.page_content]) :
    splitStage cfg l = l := by
  unfold splitStage
  apply flatMap_eq_self
  intro d hd
  rw [h d hd]
  rfl

theorem numberChunks_fix (ds : List PreDoc)
    (h : ∀ (i : Nat) (hi : i < ds.length),
      ds[i].metadata.chunk_num = some (i + 1)) :
    numberChunks ds = ds := by
  apply List.ext_getElem (numberChunks_length ds)
  intro i h1 h2
  rw [numberChunks_getElem ds i h2 h1]
  have hcn := h i h2
  cases hds : ds[i] with
  | mk pc md =>
    rw [hds] at hcn
    cases md with
    | mk s pg cn => simp_all

theorem toPreDocs_map_core : ∀ (out : List CoreDocument),
    toPreDocs (out.map coreToInDoc) =
      Except.ok (out.map (fun c => PreDoc.mk c.content c.metadata)) := by
  intro out
  induction out with
  | nil => rfl
  | cons c cs ih => simp [toPreDocs, coreToInDoc, ih]

theorem mem_splitStage (cfg : Config) (l : List PreDoc) (d : PreDoc)
    (hd : d ∈ splitStage cfg l) :
    ∃ p ∈ l, d.metadata = p.metadata ∧
      d.page_content ∈ fixedSplit cfg.chunk_size cfg.chunk_overlap
        cfg.separator p.page_content := by
  unfold splitStage at hd
  rw [List.mem_flatMap] at hd
  obtain ⟨p, hp, hd⟩ := hd
  rw [List.mem_map] at hd
  obtain ⟨c, hc, rfl⟩ := hd
  exact ⟨p, hp, rfl, hc⟩

theorem mem_preprocessDoc (S : Nat) (q d : PreDoc)
    (hd : d ∈ preprocessDoc S q) :
    (∃ pg, d.metadata.page = some pg) ∧
    isTabular d.metadata = isTabular q.metadata ∧
    (isTabular d.metadata = true → noBB d.page_content) := by
  cases hq : isTabular q.metadata with
  | false =>
    rw [preprocessDoc_nonTabular S q hq] at hd
    simp only [List.mem_singleton] at hd
    subst hd
    have hsrc : isTabular
        ({ q.metadata with
          page := some (q.metadata.page.getD 0) } : Metadata) =
        isTabular q.metadata :=
      isTabular_of_source_eq _ _ rfl
    refine ⟨⟨_, rfl⟩, ?_, ?_⟩
    · rw [hsrc]
      exact hq
    · show isTabular ({ q.metadata with
        page := some (q.metadata.page.getD 0) } : Metadata) = true → _
      rw [hsrc, hq]
      intro h
      exact absurd h (by simp)
  | true =>
    rw [preprocessDoc_tabular S q hq] at hd
    rw [List.mem_map] at hd
    obtain ⟨row, hrow, rfl⟩ := hd
    have hsrc : isTabular
        ({ q.metadata with
          page := some (q.metadata.page.getD 0),
          source := some (q.metadata.source.getD []) } : Metadata) =
        isTabular q.metadata :=
      isTabular_of_source_eq _ _ (isTabular_source_some q.metadata hq).symm
    refine ⟨⟨_, rfl⟩, ?_, ?_⟩
    · rw [show ({ q.metadata with
        source := some (q.metadata.source.getD []),
        page := some (q.metadata.page.getD 0) } : Metadata) =
        ({ q.metadata with
          page := some (q.metadata.page.getD 0),
          source := some (q.metadata.source.getD []) } : Metadata) from rfl,
        hsrc]
      exact hq
    · intro _
      exact blankline_tokenize_noBB _ row hrow

theorem mem_numberChunks (ds : List PreDoc) (d : PreDoc)
    (hd : d ∈ numberChunks ds) :
    ∃ e ∈ ds, d.page_content = e.page_content ∧
      d.metadata.page = e.metadata.page ∧
      d.metadata.source = e.metadata.source := by
  obtain ⟨i, hi, rfl⟩ := mapWithIdx_mem _ 0 ds d hd
  exact ⟨ds[i], List.getElem_mem hi, rfl, rfl, rfl⟩

theorem mem_preprocess_flatMap (S : Nat) (pre : List PreDoc) (d : PreDoc)
    (hd : d ∈ pre.flatMap (preprocessDoc S)) :
    (∃ pg, d.metadata.page = some pg) ∧
    (isTabular d.metadata = true → noBB d.page_content) := by
  rw [List.mem_flatMap] at hd
  obtain ⟨q, hq, hd⟩ := hd
  obtain ⟨h1, _, h3⟩ := mem_preprocessDoc S q d hd
  exact ⟨h1, h3⟩

theorem sd_inv (cfg : Config) (hOS : cfg.chunk_overlap < cfg.chunk_size)
    (pre : List PreDoc) (d : PreDoc)
    (hd : d ∈ splitStage cfg (pre.flatMap (preprocessDoc cfg.chunk_size))) :
    (∃ pg, d.metadata.page = some pg) ∧
    (isTabular d.metadata = true → noBB d.page_content) ∧
    d.page_content.length ≤ cfg.chunk_size := by
  obtain ⟨p, hp, hmeta, hcontent⟩ := mem_splitStage _ _ _ hd
  obtain ⟨h1, h3⟩ := mem_preprocess_flatMap _ _ _ hp
  refine ⟨by rw [hmeta]; exact h1, ?_,
    fixedSplit_length_le _ _ hOS _ _ _ hcontent⟩
  intro htab
  rw [hmeta] at htab
  have hnb := h3 htab
  obtain ⟨a, b, hab⟩ := mem_fixedSplit_sub _ _ _ _ _ hcontent
  rw [← hab] at hnb
  exact noBB_sub _ _ _ hnb

/-- Feeding the pipeline's own chunks back through the pipeline with the
same parameters reproduces them exactly, provided every tabular-sourced
chunk is nonempty. -/
theorem split_text_refeed (cfg : Config) (docs : List InDoc)
    (out : List CoreDocument)
    (hOS : cfg.chunk_overlap < cfg.chunk_size)
    (hsplit : split_text cfg docs = Except.ok out)
    (hne : ∀ c ∈ out, isTabular c.metadata = true → c.content ≠ []) :
    split_text cfg (out.map coreToInDoc) = Except.ok out := by
  have hcfg : checkConfig cfg = false := by
    simp only [checkConfig, Bool.or_eq_false_iff, decide_eq_false_iff_not,
      beq_eq_false_iff_ne, ne_eq]
    omega
  cases hpre : toPreDocs docs with
  | error e =>
    rw [split_text, hpre] at hsplit
    simp at hsplit
  | ok pre =>
    rw [split_text_ok cfg docs pre hpre hcfg] at hsplit
    simp only [Except.ok.injEq] at hsplit
    revert hsplit
    generalize hsd : splitStage cfg (pre.flatMap (preprocessDoc cfg.chunk_size)) = sd
    intro hsplit
    subst hsplit
    have hnd_inv : ∀ d ∈ numberChunks sd,
        (∃ pg, d.metadata.page = some pg) ∧
        (isTabular d.metadata = true → noBB d.page_content) ∧
        d.page_content.length ≤ cfg.chunk_size := by
      intro d hd
      obtain ⟨e, he, hpc, hpg, hsrcf⟩ := mem_numberChunks sd d hd
      rw [← hsd] at he
      obtain ⟨i1, i2, i3⟩ := sd_inv cfg hOS pre e he
      refine ⟨by rw [hpg]; exact i1, ?_, by rw [hpc]; exact i3⟩
      intro htab
      rw [isTabular_of_source_eq d.metadata e.metadata hsrcf] at htab
      rw [hpc]
      exact i2 htab
    have hnd_ne : ∀ d ∈ numberChunks sd, isTabular d.metadata = true →
        d.page_content ≠ [] := by
      intro d hd htab
      rw [List.mem_iff_getElem] at hd
      obtain ⟨i, hi, hdi⟩ := hd
      have hi2 : i < (docsToCoreDocs (numberChunks sd)).length := by
        rw [docsToCoreDocs_length]
        exact hi
      have houti := docsToCoreDocs_getElem (numberChunks sd) i hi hi2
      have hmem : (docsToCoreDocs (numberChunks sd))[i] ∈
          docsToCoreDocs (numberChunks sd) := List.getElem_mem hi2
      have h5 := hne _ hmem (by rw [houti, hdi]; exact htab)
      rw [houti, hdi] at h5
      exact h5
    have hnd_cn : ∀ (i : Nat) (hi : i < (numberChunks sd).length),
        (numberChunks sd)[i].metadata.chunk_num = some (i + 1) := by
      intro i hi
      have hi2 : i < sd.length := by
        rw [numberChunks_length] at hi
        exact hi
      rw [numberChunks_getElem sd i hi2 hi]
    have hmap : (docsToCoreDocs (numberChunks sd)).map
        (fun c => PreDoc.mk c.content c.metadata) = numberChunks sd := by
      apply List.ext_getElem
      · rw [List.length_map, docsToCoreDocs_length]
      · intro i h1 h2
        simp only [List.getElem_map]
        have h3 : i < (docsToCoreDocs (numberChunks sd)).length := by
          rw [docsToCoreDocs_length]
          exact h2
        rw [docsToCoreDocs_getElem (numberChunks sd) i h2 h3]
    have hpre2 : toPreDocs ((docsToCoreDocs (numberChunks sd)).map
        coreToInDoc) = Except.ok (numberChunks sd) := by
      rw [toPreDocs_map_core, hmap]
    rw [split_text_ok cfg _ (numberChunks sd) hpre2 hcfg]
    have h1 : (numberChunks sd).flatMap (preprocessDoc cfg.chunk_size) =
        numberChunks sd := by
      apply flatMap_eq_self
      intro d hd
      obtain ⟨i1, i2, _⟩ := hnd_inv d hd
      exact preprocessDoc_chunk _ d i1
        (fun htab => ⟨i2 htab, hnd_ne d hd htab⟩)
    have h2 : splitStage cfg (numberChunks sd) = numberChunks sd := by
      apply splitStage_eq_self
      intro d hd
      obtain ⟨_, _, i3⟩ := hnd_inv d hd
      exact fixedSplit_small _ _ _ _ i3
    have h3 : numberChunks (numberChunks sd) = numberChunks sd :=
      numberChunks_fix (numberChunks sd) hnd_cn
    rw [h1, h2, h3]

theorem mem_docsToCoreDocs (ds : List PreDoc) (c : CoreDocument)
    (hc : c ∈ docsToCoreDocs ds) :
    ∃ d ∈ ds, c.content = d.page_content ∧ c.metadata = d.metadata := by
  obtain ⟨i, hi, rfl⟩ := mapWithIdx_mem _ 0 ds c hc
  exact ⟨ds[i], List.getElem_mem hi, rfl, rfl⟩

theorem docsToCoreDocs_chunk_num (ds : List PreDoc) :
    (docsToCoreDocs ds).map (fun c => c.metadata.chunk_num) =
      ds.map (fun d => d.metadata.chunk_num) := by
  unfold docsToCoreDocs
  rw [mapWithIdx_map]
  exact mapWithIdx_const (fun d => d.metadata.chunk_num) 0 ds

/-- Anatomy of a successful `split_text` run: the input conversion
succeeded, the configuration check passed, and the output is the
numbered, split, preprocessed batch. -/
theorem split_text_out (cfg : Config) (docs : List InDoc)
    (out : List CoreDocument)
    (hsplit : split_text cfg docs = Except.ok out) :
    ∃ pre, toPreDocs docs = Except.ok pre ∧ checkConfig cfg = false ∧
      out = docsToCoreDocs (numberChunks
        (splitStage cfg (pre.flatMap (preprocessDoc cfg.chunk_size)))) := by
  cases hpre : toPreDocs docs with
  | error e =>
    rw [split_text, hpre] at hsplit
    simp at hsplit
  | ok pre =>
    by_cases hcfg : checkConfig cfg = true
    · rw [split_text_invalid cfg docs pre hpre hcfg] at hsplit
      simp at hsplit
    · have hcfg2 : checkConfig cfg = false := by
        revert hcfg
        cases checkConfig cfg <;> simp
      rw [split_text_ok cfg docs pre hpre hcfg2] at hsplit
      simp only [Except.ok.injEq] at hsplit
      exact ⟨pre, rfl, hcfg2, hsplit.symm⟩

/-- Claim C1: with 0 < chunk_size and chunk_overlap < chunk_size, every
chunk `split_text` returns has content length at most chunk_size; in
particular a single 1500-character separator-free record with
chunk_size 1000, chunk_overlap 200 is hard-cut into exactly the two
chunks [0:1000] and [800:1500], numbered 1 and 2. -/
theorem claim1_chunk_size_bound :
    (∀ (cfg : Config) (docs : List InDoc) (out : List CoreDocument),
      0 < cfg.chunk_size → cfg.chunk_overlap < cfg.chunk_size →
      split_text cfg docs = Except.ok out →
      ∀ c ∈ out, c.content.length ≤ cfg.chunk_size) ∧
    split_text ⟨1000, 200, ['\n']⟩
      [⟨some (List.replicate 1500 'X'), ⟨some "doc.txt".toList, none, none⟩⟩] =
      Except.ok
        [⟨"doc.txt_0".toList, (List.replicate 1500 'X').take 1000,
          ⟨some "doc.txt".toList, some 0, some 1⟩⟩,
         ⟨"doc.txt_1".toList, (List.replicate 1500 'X').drop 800,
          ⟨some "doc.txt".toList, some 0, some 2⟩⟩] := by
  constructor
  · intro cfg docs out _ hOS hsplit c hc
    obtain ⟨pre, hpre, hcfg, hout⟩ := split_text_out cfg docs out hsplit
    subst hout
    obtain ⟨d, hd, hcont, _⟩ := mem_docsToCoreDocs _ c hc
    obtain ⟨e, he, hpc, _, _⟩ := mem_numberChunks _ d hd
    obtain ⟨_, _, i3⟩ := sd_inv cfg hOS pre e he
    rw [hcont, hpc]
    exact i3
  · have hnot : '\n' ∉ List.replicate 1500 'X' := by
      intro hmem
      exact absurd (List.eq_of_mem_replicate hmem) (by decide)
    have hlen : (List.replicate 1500 'X').length = 1500 := by simp
    have hB : fixedSplit 1000 200 ['\n'] (List.replicate 1500 'X') =
        [(List.replicate 1500 'X').take 1000,
         (List.replicate 1500 'X').drop 800] := by
      rw [fixedSplit_single_unit 1000 200 '\n' [] _ hnot,
        hardCut_step 1000 200 _ (by rw [hlen]; decide) (by decide),
        hardCut_small 1000 200 _ (by rw [List.length_drop, hlen]; decide)]
    rw [split_text_ok ⟨1000, 200, ['\n']⟩
      [⟨some (List.replicate 1500 'X'), ⟨some "doc.txt".toList, none, none⟩⟩]
      [⟨List.replicate 1500 'X', ⟨some "doc.txt".toList, none, none⟩⟩] rfl
      (by decide)]
    rw [show ((⟨1000, 200, ['\n']⟩ : Config).chunk_size) = 1000 from rfl]
    have h1 : ([(⟨List.replicate 1500 'X',
        ⟨some "doc.txt".toList, none, none⟩⟩ : PreDoc)]).flatMap
          (preprocessDoc 1000) =
        [⟨List.replicate 1500 'X',
          ⟨some "doc.txt".toList, some 0, none⟩⟩] := by
      rw [List.flatMap_cons, List.flatMap_nil, List.append_nil,
        preprocessDoc_nonTabular 1000 _ (by decide)]
      rfl
    rw [h1]
    have h2 : splitStage ⟨1000, 200, ['\n']⟩
        [⟨List.replicate 1500 'X', ⟨some "doc.txt".toList, some 0, none⟩⟩] =
        [⟨(List.replicate 1500 'X').take 1000,
          ⟨some "doc.txt".toList, some 0, none⟩⟩,
         ⟨(List.replicate 1500 'X').drop 800,
          ⟨some "doc.txt".toList, some 0, none⟩⟩] := by
      unfold splitStage
      rw [List.flatMap_cons, List.flatMap_nil, List.append_nil]
      rw [show ((⟨1000, 200, ['\n']⟩ : Config).chunk_size) = 1000 from rfl,
        show ((⟨1000, 200, ['\n']⟩ : Config).chunk_overlap) = 200 from rfl,
        show ((⟨1000, 200, ['\n']⟩ : Config).separator) = ['\n'] from rfl,
        hB]
      rfl
    rw [h2]
    rfl

/-- Witness for C1: the bound instantiated on the 1500-character
scenario batch. -/
theorem claim1_witness :
    0 < (1000 : Nat) ∧ (200 : Nat) < 1000 ∧
    ∀ c ∈ [CoreDocument.mk "doc.txt_0".toList
        ((List.replicate 1500 'X').take 1000)
        ⟨some "doc.txt".toList, some 0, some 1⟩,
      CoreDocument.mk "doc.txt_1".toList
        ((List.replicate 1500 'X').drop 800)
        ⟨some "doc.txt".toList, some 0, some 2⟩],
      c.content.length ≤ 1000 :=
  ⟨by decide, by decide,
    claim1_chunk_size_bound.1 ⟨1000, 200, ['\n']⟩
      [⟨some (List.replicate 1500 'X'), ⟨some "doc.txt".toList, none, none⟩⟩]
      _ (by decide) (by decide) claim1_chunk_size_bound.2⟩

/-- Claim C2, counterexample: with chunk_overlap 1000 ≥ chunk_size 500,
the pipeline does not fail before records are processed — a malformed
record, which the preprocessing loop reaches first, raises
MalformedRecord rather than InvalidConfiguration. -/
theorem claim2_counterexample :
    split_text ⟨500, 1000, ['\n']⟩ [⟨none, ⟨none, none, none⟩⟩] =
      Except.error SplitError.malformedRecord ∧
    SplitError.malformedRecord ≠ SplitError.invalidConfiguration :=
  ⟨rfl, by decide⟩

/-- Claim C2, amended: with chunk_overlap ≥ chunk_size or
chunk_size ≤ 0, `split_text` raises InvalidConfiguration — but only at
the point the final fixed-size splitter is constructed, after every
input record has been converted and preprocessed; a malformed record
surfaces first. -/
theorem claim2_amended (cfg : Config) (docs : List InDoc) (pre : List PreDoc)
    (hbad : cfg.chunk_size ≤ cfg.chunk_overlap ∨ cfg.chunk_size = 0)
    (hpre : toPreDocs docs = Except.ok pre) :
    split_text cfg docs = Except.error SplitError.invalidConfiguration := by
  apply split_text_invalid cfg docs pre hpre
  simp only [checkConfig, Bool.or_eq_true, decide_eq_true_eq, beq_iff_eq]
  exact hbad

/-- Witness for the amended C2: scenario 4 (overlap 1000, size 500) on a
well-formed one-record batch. -/
theorem claim2_witness :
    split_text ⟨500, 1000, ['\n']⟩
      [⟨some "hello".toList, ⟨some "a.txt".toList, some 1, none⟩⟩] =
      Except.error SplitError.invalidConfiguration :=
  claim2_amended ⟨500, 1000, ['\n']⟩
    [⟨some "hello".toList, ⟨some "a.txt".toList, some 1, none⟩⟩]
    [⟨"hello".toList, ⟨some "a.txt".toList, some 1, none⟩⟩]
    (Or.inl (by decide)) rfl

/-- Claim C3, counterexample: merging the records "A"*50 (page 1) and
"B"*50 (page 2) with chunk_len 1000 yields one record of length 102
(50 + 2 + 50), not 100, and its text is not the first record's text
followed by the blank line followed by the second record's text. -/
theorem claim3_counterexample :
    (normalize [⟨List.replicate 50 'A', 1⟩, ⟨List.replicate 50 'B', 2⟩]
        1000).map (fun i => i.text.length) = [102] ∧
    (102 : Nat) ≠ 100 ∧
    (normalize [⟨List.replicate 50 'A', 1⟩, ⟨List.replicate 50 'B', 2⟩]
        1000).map (fun i => i.text) ≠
      [List.replicate 50 'A' ++ blankSep ++ List.replicate 50 'B'] :=
  ⟨by decide, by decide, by decide⟩

/-- Claim C3, amended: the normalizer merges the two records into a
single record of length 102 and page_num 1 whose text is the SECOND
record's text, the blank-line separator, then the FIRST record's text
(merge_item receives the current record first and the carry second);
the splitter then emits that merged record as one chunk; and in general
an existing carry is merged with the current record, kept as the new
carry while shorter than chunk_len and emitted otherwise. -/
theorem claim3_amended :
    normalize [⟨List.replicate 50 'A', 1⟩, ⟨List.replicate 50 'B', 2⟩] 1000 =
      [⟨List.replicate 50 'B' ++ blankSep ++ List.replicate 50 'A', 1⟩] ∧
    fixedSplit 1000 200 ['\n']
        (List.replicate 50 'B' ++ blankSep ++ List.replicate 50 'A') =
      [List.replicate 50 'B' ++ blankSep ++ List.replicate 50 'A'] ∧
    (∀ (L : Nat) (t v : Item) (rest : List Item),
      normGo L (some t) (v :: rest) =
        if (merge_item v t (page_avg v.page_num t.page_num)).text.length < L
        then normGo L (some (merge_item v t (page_avg v.page_num t.page_num)))
          rest
        else merge_item v t (page_avg v.page_num t.page_num) ::
          normGo L none rest) := by
  refine ⟨by decide, by decide, ?_⟩
  intro L t v rest
  rfl

/-- Claim C4: the chunk_num metadata values of a successful `split_text`
run are exactly 1, 2, 3, ... in output order, global across the whole
batch. -/
theorem claim4_chunk_numbering (cfg : Config) (docs : List InDoc)
    (out : List CoreDocument)
    (hsplit : split_text cfg docs = Except.ok out) :
    out.map (fun c => c.metadata.chunk_num) =
      (List.range' 1 out.length).map (fun i => some i) := by
  obtain ⟨pre, hpre, hcfg, hout⟩ := split_text_out cfg docs out hsplit
  subst hout
  rw [docsToCoreDocs_chunk_num, numberChunks_chunk_num,
    docsToCoreDocs_length, numberChunks_length]

def docs4 : List InDoc :=
  [⟨some "aaaa\nbbbb".toList, ⟨some "f1.txt".toList, some 1, none⟩⟩,
   ⟨some "cccc".toList, ⟨some "f2.txt".toList, some 2, none⟩⟩]

def out4 : List CoreDocument :=
  [⟨"f1.txt_0".toList, "aaaa".toList,
    ⟨some "f1.txt".toList, some 1, some 1⟩⟩,
   ⟨"f1.txt_1".toList, "a\nbb".toList,
    ⟨some "f1.txt".toList, some 1, some 2⟩⟩,
   ⟨"f1.txt_2".toList, "bbb".toList,
    ⟨some "f1.txt".toList, some 1, some 3⟩⟩,
   ⟨"f2.txt_3".toList, "cccc".toList,
    ⟨some "f2.txt".toList, some 2, some 4⟩⟩]

/-- Witness for C4: a two-file batch is numbered 1, 2, 3 with no reset
at the file boundary. -/
theorem claim4_witness :
    split_text ⟨4, 1, ['\n']⟩ docs4 = Except.ok out4 ∧
    out4.map (fun c => c.metadata.chunk_num) =
      (List.range' 1 out4.length).map (fun i => some i) :=
  ⟨by decide, claim4_chunk_numbering ⟨4, 1, ['\n']⟩ docs4 out4 (by decide)⟩

/-- Claim C5: the tabular resplitter emits exactly one record per
blank-line-delimited block, in text order, each carrying the parent
record's fields, merging nothing; on `"row1\n\nrow2\n\nrow3"` it yields
the three records `"row1"`, `"row2"`, `"row3"`. -/
theorem claim5_tabular_resplit :
    (xls_normalize
        [⟨"u".toList, "f.xlsx".toList, 3, "row1\n\nrow2\n\nrow3".toList⟩] =
      [⟨"u".toList, "f.xlsx".toList, 3, "row1".toList⟩,
       ⟨"u".toList, "f.xlsx".toList, 3, "row2".toList⟩,
       ⟨"u".toList, "f.xlsx".toList, 3, "row3".toList⟩]) ∧
    (∀ (items : List XItem),
      (xls_normalize items).map (fun x => x.text) =
        items.flatMap (fun it => blankline_tokenize it.text)) ∧
    (∀ (items : List XItem) (x : XItem), x ∈ xls_normalize items →
      ∃ p ∈ items, x.uuid = p.uuid ∧ x.file_path = p.file_path ∧
        x.page_num = p.page_num ∧ x.text ∈ blankline_tokenize p.text) := by
  refine ⟨by decide, ?_, ?_⟩
  · intro items
    unfold xls_normalize
    rw [List.map_flatMap]
    congr 1
    funext it
    rw [List.map_map]
    exact List.map_id (blankline_tokenize it.text)
  · intro items x hx
    unfold xls_normalize at hx
    rw [List.mem_flatMap] at hx
    obtain ⟨p, hp, hx⟩ := hx
    rw [List.mem_map] at hx
    obtain ⟨row, hrow, rfl⟩ := hx
    exact ⟨p, hp, rfl, rfl, rfl, hrow⟩

/-- Witness for C5: the metadata-carrying clause instantiated on the
spreadsheet scenario record. -/
theorem claim5_witness :
    ∃ p ∈ [(⟨"u".toList, "f.xlsx".toList, 3,
        "row1\n\nrow2\n\nrow3".toList⟩ : XItem)],
      ("u".toList : Str) = p.uuid ∧ ("f.xlsx".toList : Str) = p.file_path ∧
      (3 : Int) = p.page_num ∧ ("row1".toList : Str) ∈
        blankline_tokenize p.text :=
  claim5_tabular_resplit.2.2
    [⟨"u".toList, "f.xlsx".toList, 3, "row1\n\nrow2\n\nrow3".toList⟩]
    ⟨"u".toList, "f.xlsx".toList, 3, "row1".toList⟩ (by decide)

/-- Claim C6: the merged page number is the floor (toward negative
infinity) of the average of the two page numbers, for all integers
including negative ones; e.g. pages -3 and 2 average to -1 (not 0), and
the normalizer produces exactly that on a merge. -/
theorem claim6_page_floor_avg :
    (∀ a b : Int,
      2 * page_avg a b ≤ a + b ∧ a + b < 2 * page_avg a b + 2) ∧
    page_avg (-3) 2 = -1 ∧ page_avg 2 1 = 1 ∧
    normalize [⟨"x".toList, -3⟩, ⟨"y".toList, 2⟩] 100 =
      [⟨"y".toList ++ blankSep ++ "x".toList, -1⟩] := by
  refine ⟨?_, by decide, by decide, by decide⟩
  intro a b
  unfold page_avg
  rw [Int.fdiv_eq_ediv _ (by norm_num : (0 : Int) ≤ 2)]
  omega

/-- Claim C7, counterexample: with chunk_size 3, chunk_overlap 2,
separator "\n", the unit "a\nbbbb" assembles into the pieces "a" and
"a\nbbbb"; the first piece is shorter than chunk_overlap, so the
following piece's overlap prefix has only one character, and dropping a
full chunk_overlap-length prefix from each chunk after the first loses
the separator character: concatenation gives "abbbb", not the unit. -/
theorem claim7_counterexample :
    fixedSplit 3 2 ['\n'] "a\nbbbb".toList =
      ["a".toList, "a\nb".toList, "\nbb".toList, "bbb".toList,
       "bbb".toList] ∧
    overlapRecon 2 (fixedSplit 3 2 ['\n'] "a\nbbbb".toList) =
      "abbbb".toList ∧
    overlapRecon 2 (fixedSplit 3 2 ['\n'] "a\nbbbb".toList) ≠
      "a\nbbbb".toList :=
  ⟨by decide, by decide, by decide⟩

/-- Claim C7, amended: for 0 ≤ O < S, reconstruction holds with each
chunk's actual overlap prefix: re-reading each hard-cut group as its
piece (every later window drops exactly chunk_overlap characters) and
dropping from each later piece its overlap prefix — chunk_overlap
characters, or the whole preceding piece when that is shorter —
reproduces the normalized unit exactly, for every unit; and whenever
every assembled piece carries at least chunk_overlap characters,
dropping exactly chunk_overlap characters from each chunk after the
first within the unit reproduces the unit, as the claim states. -/
theorem claim7_amended :
    (∀ (S O : Nat) (sep t : Str), O < S →
      piecesRecon O ((fixedSplitGroups S O sep t).map (overlapRecon O)) =
        t) ∧
    (∀ (S O : Nat) (sep t : Str), O < S →
      (∀ p ∈ assemble S O sep (splitOnSep sep t), O ≤ p.length) →
      overlapRecon O (fixedSplit S O sep t) = t) :=
  ⟨fun S O sep t hO => fixedSplitGroups_recon S O hO sep t,
   fun S O sep t hO hp => overlapRecon_fixedSplit S O hO sep t hp⟩

/-- Witness for the amended C7: both reconstruction forms on the unit
"aaaa\nbbbb" with chunk_size 4 and chunk_overlap 2, whose chunks are
"aaaa", "aa\nb", "\nbbb", "bbb" — every assembled piece has at least
two characters, and the exact two-character drops rebuild the unit. -/
theorem claim7_witness :
    (2 : Nat) < 4 ∧
    piecesRecon 2 ((fixedSplitGroups 4 2 ['\n']
        "aaaa\nbbbb".toList).map (overlapRecon 2)) =
      "aaaa\nbbbb".toList ∧
    overlapRecon 2 (fixedSplit 4 2 ['\n'] "aaaa\nbbbb".toList) =
      "aaaa\nbbbb".toList :=
  ⟨by decide,
   claim7_amended.1 4 2 ['\n'] "aaaa\nbbbb".toList (by decide),
   claim7_amended.2 4 2 ['\n'] "aaaa\nbbbb".toList (by decide) (by decide)⟩

def cfg8 : Config := ⟨2, 1, ['r']⟩

def docs8 : List InDoc :=
  [⟨some "row1".toList, ⟨some "t.xls".toList, some 1, none⟩⟩]

def out8 : List CoreDocument :=
  [⟨"t.xls_0".toList, [], ⟨some "t.xls".toList, some 1, some 1⟩⟩,
   ⟨"t.xls_1".toList, "ro".toList, ⟨some "t.xls".toList, some 1, some 2⟩⟩,
   ⟨"t.xls_2".toList, "ow".toList, ⟨some "t.xls".toList, some 1, some 3⟩⟩,
   ⟨"t.xls_3".toList, "w1".toList, ⟨some "t.xls".toList, some 1, some 4⟩⟩]

def out8b : List CoreDocument :=
  [⟨"t.xls_0".toList, "ro".toList, ⟨some "t.xls".toList, some 1, some 1⟩⟩,
   ⟨"t.xls_1".toList, "ow".toList, ⟨some "t.xls".toList, some 1, some 2⟩⟩,
   ⟨"t.xls_2".toList, "w1".toList, ⟨some "t.xls".toList, some 1, some 3⟩⟩]

/-- Claim C8, counterexample: a tabular batch whose chunks are all
within chunk_size but where one chunk is empty: re-feeding the output
drops the empty chunk (the blank-line tokenizer of the tabular path
yields no block for it), so the pipeline is not idempotent as stated. -/
theorem claim8_counterexample :
    split_text cfg8 docs8 = Except.ok out8 ∧
    (out8.map (fun c => c.content.length)).all
      (fun n => decide (n ≤ cfg8.chunk_size)) = true ∧
    split_text cfg8 (out8.map coreToInDoc) = Except.ok out8b ∧
    out8b ≠ out8 :=
  ⟨by decide, by decide, by decide, by decide⟩

/-- Claim C8, amended: with chunk_overlap < chunk_size, feeding the
chunks of a successful run back through `split_text` with the same
parameters reproduces them exactly — provided every chunk carrying a
tabular source is nonempty (each output chunk is already ≤ chunk_size,
which needs no extra proviso). -/
theorem claim8_amended (cfg : Config) (docs : List InDoc)
    (out : List CoreDocument)
    (hOS : cfg.chunk_overlap < cfg.chunk_size)
    (hsplit : split_text cfg docs = Except.ok out)
    (hne : ∀ c ∈ out, isTabular c.metadata = true → c.content ≠ []) :
    split_text cfg (out.map coreToInDoc) = Except.ok out :=
  split_text_refeed cfg docs out hOS hsplit hne

/-- Witness for the amended C8: the two-file batch re-fed through the
pipeline reproduces its own chunks. -/
theorem claim8_witness :
    split_text ⟨4, 1, ['\n']⟩ (out4.map coreToInDoc) = Except.ok out4 :=
  claim8_amended ⟨4, 1, ['\n']⟩ docs4 out4 (by decide) (by decide)
    (by decide)

/-- Claim C9: the ids of the chunks of one `split_text` invocation are
pairwise distinct, each formed from the chunk's source name and its
ordinal index in the batch. -/
theorem claim9_unique_ids (cfg : Config) (docs : List InDoc)
    (out : List CoreDocument)
    (hsplit : split_text cfg docs = Except.ok out) :
    (out.map (fun c => c.id)).Nodup ∧
    ∀ (i : Nat) (hi : i < out.length),
      out[i].id = mkId out[i].metadata i := by
  obtain ⟨pre, hpre, hcfg, hout⟩ := split_text_out cfg docs out hsplit
  subst hout
  refine ⟨ids_nodup _, ?_⟩
  intro i hi
  have hi2 : i < (numberChunks (splitStage cfg
      (pre.flatMap (preprocessDoc cfg.chunk_size)))).length := by
    rw [docsToCoreDocs_length] at hi
    exact hi
  rw [docsToCoreDocs_getElem _ i hi2 hi]

/-- Witness for C9: distinct ids on the two-file batch. -/
theorem claim9_witness :
    (out4.map (fun c => c.id)).Nodup ∧
    ∀ (i : Nat) (hi : i < out4.length),
      out4[i].id = mkId out4[i].metadata i :=
  claim9_unique_ids ⟨4, 1, ['\n']⟩ docs4 out4 (by decide)

/-- Claim C10: `normalize` is the identity on one-element lists, and
since `split_text` normalizes each non-tabular document as a singleton,
the preprocessing stage leaves every non-tabular document's text intact
— no cross-document merge can occur. -/
theorem claim10_normalize_singleton :
    (∀ (r : Item) (L : Nat), normalize [r] L = [r]) ∧
    (∀ (cfg : Config) (docs : List InDoc) (pre : List PreDoc),
      toPreDocs docs = Except.ok pre →
      (∀ d ∈ pre, isTabular d.metadata = false) →
      (pre.flatMap (preprocessDoc cfg.chunk_size)).map
          (fun d => d.page_content) =
        pre.map (fun d => d.page_content)) := by
  constructor
  · intro r L
    exact normalize_singleton r L
  · intro cfg docs pre hdocs hnt
    clear hdocs
    induction pre with
    | nil => rfl
    | cons d ds ih =>
      rw [List.flatMap_cons, List.map_append,
        preprocessDoc_nonTabular cfg.chunk_size d (hnt d (by simp))]
      rw [ih (fun a ha => hnt a (by simp [ha]))]
      rfl

def pre10 : List PreDoc :=
  [⟨"aaaa".toList, ⟨some "f1.txt".toList, some 1, none⟩⟩,
   ⟨"bb".toList, ⟨some "f2.txt".toList, some 2, none⟩⟩]

/-- Witness for C10: two small non-tabular records keep their texts
through preprocessing — nothing is merged. -/
theorem claim10_witness :
    (pre10.flatMap (preprocessDoc (4 : Nat))).map
        (fun d => d.page_content) =
      pre10.map (fun d => d.page_content) :=
  claim10_normalize_singleton.2 ⟨4, 1, ['\n']⟩
    (pre10.map (fun d => InDoc.mk (some d.page_content) d.metadata)) pre10
    (by decide) (by decide)

end AIPlatform
